import Mathlib

/-!
Verification of the shedskin runtime library core against its specification.

The development shallowly embeds the relevant parts of the C++ runtime:
  * `list<T>` from `shedskin/lib/builtin/list.hpp` as Lean functions over
    `List α` (the `units` vector), with fallible operations returning
    `Except SsErr`;
  * `bytes` from the bytes translation unit as a structure holding the raw
    byte buffer (`List Nat`, each entry a byte value), the memoized `hash`
    field (sentinel `-1`) and the `frozen` flag;
  * the CSV writer/reader, whose implementation translation unit is not part
    of the sources at hand, modelled from the specification (§4.3-§4.4).

Machine integers (`__ss_int`) are modelled as unbounded `Int`; the claims
under study are about element/index arithmetic far below any overflow
boundary, and container sizes are abstract.
-/

namespace Shedskin

/-- Error conditions raised by the runtime (`IndexError`, `ValueError`,
and the CSV module's `Error` class). -/
inductive SsErr where
  | indexError (msg : String)
  | valueError (msg : String)
  | csvError (msg : String)
deriving DecidableEq, Repr

/-- Modelled from the spec: `slicenr` (slice normalization, declared in
`builtin.hpp`, which is not among the sources at hand).  Spec §4.1:
"negative endpoints are offset by length, then clamped into `[0, length]`
for positive step (`[-1, length-1]` conceptually for negative step)"; a
step of zero is an error; bit 2 of `x` records whether the step was given
(`s = 1` otherwise).  The start/stop defaulting bits of `x` are not needed
by any claim (all claims supply start, stop and step, i.e. `x = 7`).
This is the total normalization function; `slicenr` wraps it with the
zero-step check. -/
def slicenrF (x : Nat) (l u s n : Int) : Int × Int × Int :=
  let s' := if x &&& 4 ≠ 0 then s else 1
  let norm : Int → Int := fun e => if e < 0 then e + n else e
  let clamp : Int → Int := fun e =>
    if s' > 0 then max 0 (min n e) else max (-1) (min (n - 1) e)
  (clamp (norm l), clamp (norm u), s')

/-- Modelled from the spec: the fallible entry point of slice
normalization ("a zero step is an error", §4.1). -/
def slicenr (x : Nat) (l u s n : Int) : Except SsErr (Int × Int × Int) :=
  if x &&& 4 ≠ 0 ∧ s = 0 then
    Except.error (SsErr.valueError "slice step cannot be zero")
  else
    Except.ok (slicenrF x l u s n)

/-- The index sequence of the stride walk performed by `list<T>` for a
non-unit step (`list.hpp`, the `for(i=l; i<u; i+=s)` /
`for(i=l; i>u; i+=s)` loops): starts at `l`, steps by `s`, continues while
`i < u` for positive `s` and while `i > u` for negative `s`. -/
def strideIdxs (l u s : Int) : List Int :=
  if h : (0 < s ∧ l < u) ∨ (s < 0 ∧ u < l) then
    l :: strideIdxs (l + s) u s
  else
    []
termination_by (if 0 < s then u - l else l - u).toNat
decreasing_by
  rcases h with ⟨hs, hlu⟩ | ⟨hs, hul⟩
  · rw [if_pos hs, if_pos hs]; omega
  · rw [if_neg (by omega), if_neg (by omega)]; omega

theorem strideIdxs_stop {l u s : Int}
    (h : ¬ ((0 < s ∧ l < u) ∨ (s < 0 ∧ u < l))) : strideIdxs l u s = [] := by
  rw [strideIdxs.eq_def]; simp [h]

theorem strideIdxs_step {l u s : Int}
    (h : (0 < s ∧ l < u) ∨ (s < 0 ∧ u < l)) :
    strideIdxs l u s = l :: strideIdxs (l + s) u s := by
  rw [strideIdxs.eq_def]; simp [h]

/-- Every index visited by a positive-step stride walk lies in `[l, u)`. -/
theorem strideIdxs_mem_pos {l u s j : Int} (hs : 0 < s)
    (hj : j ∈ strideIdxs l u s) : l ≤ j ∧ j < u := by
  by_cases hc : (0 < s ∧ l < u) ∨ (s < 0 ∧ u < l)
  · rw [strideIdxs_step hc] at hj
    rcases List.mem_cons.mp hj with rfl | hj'
    · rcases hc with ⟨_, h⟩ | ⟨h, _⟩
      · exact ⟨le_refl _, h⟩
      · omega
    · have := strideIdxs_mem_pos hs hj'
      omega
  · rw [strideIdxs_stop hc] at hj
    simp at hj
termination_by (u - l).toNat
decreasing_by
  rcases hc with ⟨_, h⟩ | ⟨h, _⟩ <;> omega

/-- Every index visited by a negative-step stride walk lies in `(u, l]`. -/
theorem strideIdxs_mem_neg {l u s j : Int} (hs : s < 0)
    (hj : j ∈ strideIdxs l u s) : u < j ∧ j ≤ l := by
  by_cases hc : (0 < s ∧ l < u) ∨ (s < 0 ∧ u < l)
  · rw [strideIdxs_step hc] at hj
    rcases List.mem_cons.mp hj with rfl | hj'
    · rcases hc with ⟨h, _⟩ | ⟨_, h⟩
      · omega
      · exact ⟨h, le_refl _⟩
    · have := strideIdxs_mem_neg hs hj'
      omega
  · rw [strideIdxs_stop hc] at hj
    simp at hj
termination_by (l - u).toNat
decreasing_by
  rcases hc with ⟨h, _⟩ | ⟨_, h⟩ <;> omega

/-- The extended-slice size computed by `list<T>::__setslice__` before any
write (`list.hpp` lines 266-276): zero when the normalized walk is
degenerate (`l == u`, or the bounds are inverted for the sign of the
step), otherwise `slicelen/absstep` rounded up exactly as the source
writes it (`slicesize += 1` when the division has a remainder). -/
def slicesizeN (l u s : Int) : Nat :=
  if l = u then 0
  else if s > 0 ∧ u < l then 0
  else if s < 0 ∧ l < u then 0
  else (u - l).natAbs / s.natAbs + (if (u - l).natAbs % s.natAbs ≠ 0 then 1 else 0)

theorem slicesizeN_one {d sN : Nat} (h0 : 0 < d) (hle : d ≤ sN) :
    d / sN + (if d % sN ≠ 0 then 1 else 0) = 1 := by
  rcases Nat.lt_or_ge d sN with hlt | hge
  · rw [Nat.div_eq_of_lt hlt, Nat.mod_eq_of_lt hlt,
      if_pos (show d ≠ 0 by omega)]
  · have : d = sN := le_antisymm hle hge
    subst this
    rw [Nat.div_self h0, Nat.mod_self]
    simp

/-- One step of the stride walk shrinks the source's extended-slice size
by exactly one. -/
theorem slicesizeN_rec {l u s : Int}
    (hc : (0 < s ∧ l < u) ∨ (s < 0 ∧ u < l)) :
    slicesizeN l u s = slicesizeN (l + s) u s + 1 := by
  rcases hc with ⟨hs, hlu⟩ | ⟨hs, hul⟩
  · have hlu' : l ≠ u := by omega
    have hg2 : ¬ (s > 0 ∧ u < l) := by omega
    have hg3 : ¬ (s < 0 ∧ l < u) := by omega
    rw [slicesizeN, if_neg hlu', if_neg hg2, if_neg hg3]
    rcases lt_trichotomy (l + s) u with hlt | heq | hgt
    · -- the walk continues: peel one full step off the ceiling division
      have h1 : l + s ≠ u := by omega
      have h2 : ¬ (s > 0 ∧ u < l + s) := by omega
      have h3 : ¬ (s < 0 ∧ l + s < u) := by omega
      rw [slicesizeN, if_neg h1, if_neg h2, if_neg h3]
      have hd : (u - l).natAbs = (u - (l + s)).natAbs + s.natAbs := by omega
      rw [hd, Nat.add_div_right _ (by omega), Nat.add_mod_right]
      omega
    · -- the next start lands exactly on the stop bound
      rw [slicesizeN, if_pos heq]
      have : (u - l).natAbs = s.natAbs := by omega
      rw [this, Nat.div_self (by omega), Nat.mod_self]
      simp
    · -- the next start overshoots the stop bound
      have h1 : l + s ≠ u := by omega
      have h2 : s > 0 ∧ u < l + s := by omega
      rw [slicesizeN, if_neg h1, if_pos h2]
      exact slicesizeN_one (by omega) (by omega)
  · have hlu' : l ≠ u := by omega
    have hg2 : ¬ (s > 0 ∧ u < l) := by omega
    have hg3 : ¬ (s < 0 ∧ l < u) := by omega
    rw [slicesizeN, if_neg hlu', if_neg hg2, if_neg hg3]
    rcases lt_trichotomy u (l + s) with hlt | heq | hgt
    · have h1 : l + s ≠ u := by omega
      have h2 : ¬ (s > 0 ∧ u < l + s) := by omega
      have h3 : ¬ (s < 0 ∧ l + s < u) := by omega
      rw [slicesizeN, if_neg h1, if_neg h2, if_neg h3]
      have hd : (u - l).natAbs = (u - (l + s)).natAbs + s.natAbs := by omega
      rw [hd, Nat.add_div_right _ (by omega), Nat.add_mod_right]
      omega
    · rw [slicesizeN, if_pos heq.symm]
      have : (u - l).natAbs = s.natAbs := by omega
      rw [this, Nat.div_self (by omega), Nat.mod_self]
      simp
    · have h1 : l + s ≠ u := by omega
      have h2 : ¬ (s > 0 ∧ u < l + s) := by omega
      have h3 : s < 0 ∧ l + s < u := by omega
      rw [slicesizeN, if_neg h1, if_neg h2, if_pos h3]
      exact slicesizeN_one (by omega) (by omega)

/-- The number of indices the stride walk touches equals the size that
`__setslice__` checks the replacement's length against. -/
theorem strideIdxs_length {l u s : Int} (hs : s ≠ 0) :
    (strideIdxs l u s).length = slicesizeN l u s := by
  by_cases hc : (0 < s ∧ l < u) ∨ (s < 0 ∧ u < l)
  · rw [strideIdxs_step hc, List.length_cons, strideIdxs_length hs,
      slicesizeN_rec hc]
  · rw [strideIdxs_stop hc, List.length_nil]
    rcases lt_trichotomy l u with h | h | h
    · have : ¬ (0 < s) := fun hp => hc (Or.inl ⟨hp, h⟩)
      rw [slicesizeN, if_neg (by omega), if_neg (by omega),
        if_pos (by omega)]
    · rw [slicesizeN, if_pos h]
    · have : ¬ (s < 0) := fun hn => hc (Or.inr ⟨hn, h⟩)
      rw [slicesizeN, if_neg (by omega), if_pos (by omega)]
termination_by (if 0 < s then u - l else l - u).toNat
decreasing_by
  rcases hc with ⟨hp, hlu⟩ | ⟨hn, hul⟩
  · rw [if_pos hp, if_pos hp]; omega
  · rw [if_neg (by omega), if_neg (by omega)]; omega

/-- Start index not revisited: the tail of a stride walk never returns to
its starting index. -/
theorem strideIdxs_start_not_mem {j u s : Int} (hs : s ≠ 0) :
    (j : Int) ∉ strideIdxs (j + s) u s := by
  intro hmem
  rcases lt_or_gt_of_ne hs with hneg | hpos
  · have := strideIdxs_mem_neg hneg hmem
    omega
  · have := strideIdxs_mem_pos hpos hmem
    omega

/-- The overwrite loops of `list<T>::__setslice__` for a non-unit step
(`list.hpp` lines 290-296): walk the stride indices `j`, writing the
consecutive replacement elements `la[i]` into `units[j]`.  The source's
two loops (`j < u` ascending, `j > u` descending) are merged into one
recursion guarded by the sign of the step. -/
def writeStride [Inhabited α] (units la : List α) (i : Nat) (j u s : Int) :
    List α :=
  if _h : (0 < s ∧ j < u) ∨ (s < 0 ∧ u < j) then
    writeStride (units.set j.toNat (la.getD i default)) la (i + 1) (j + s) u s
  else
    units
termination_by (if 0 < s then u - j else j - u).toNat
decreasing_by
  rcases _h with ⟨hs, hlu⟩ | ⟨hs, hul⟩
  · rw [if_pos hs, if_pos hs]; omega
  · rw [if_neg (by omega), if_neg (by omega)]; omega

theorem writeStride_stop [Inhabited α] {units la : List α} {i : Nat}
    {j u s : Int} (h : ¬ ((0 < s ∧ j < u) ∨ (s < 0 ∧ u < j))) :
    writeStride units la i j u s = units := by
  rw [writeStride.eq_def]; simp [h]

theorem writeStride_step [Inhabited α] {units la : List α} {i : Nat}
    {j u s : Int} (h : (0 < s ∧ j < u) ∨ (s < 0 ∧ u < j)) :
    writeStride units la i j u s =
      writeStride (units.set j.toNat (la.getD i default)) la (i + 1)
        (j + s) u s := by
  rw [writeStride.eq_def]; simp [h]

/-- The overwrite loop never grows or shrinks the container. -/
theorem writeStride_length [Inhabited α] (units la : List α) (i : Nat)
    (j u s : Int) : (writeStride units la i j u s).length = units.length := by
  by_cases hc : (0 < s ∧ j < u) ∨ (s < 0 ∧ u < j)
  · rw [writeStride_step hc, writeStride_length, List.length_set]
  · rw [writeStride_stop hc]
termination_by (if 0 < s then u - j else j - u).toNat
decreasing_by
  rcases hc with ⟨hs, hlu⟩ | ⟨hs, hul⟩
  · rw [if_pos hs, if_pos hs]; omega
  · rw [if_neg (by omega), if_neg (by omega)]; omega

/-- Frame property of the overwrite loop: a position not on the stride is
untouched. -/
theorem writeStride_frame [Inhabited α] {units la : List α} {i : Nat}
    {j u s : Int} (hall : ∀ m ∈ strideIdxs j u s, 0 ≤ m) {p : Nat}
    (hp : (p : Int) ∉ strideIdxs j u s) (d : α) :
    (writeStride units la i j u s).getD p d = units.getD p d := by
  by_cases hc : (0 < s ∧ j < u) ∨ (s < 0 ∧ u < j)
  · rw [writeStride_step hc]
    rw [strideIdxs_step hc] at hp hall
    have hpj : (p : Int) ≠ j := fun h => hp (h ▸ List.mem_cons_self _ _)
    have hptl : (p : Int) ∉ strideIdxs (j + s) u s :=
      fun h => hp (List.mem_cons_of_mem _ h)
    have hj0 : 0 ≤ j := hall j (List.mem_cons_self _ _)
    have htl : ∀ m ∈ strideIdxs (j + s) u s, 0 ≤ m :=
      fun m hm => hall m (List.mem_cons_of_mem _ hm)
    rw [writeStride_frame htl hptl d]
    have : j.toNat ≠ p := by omega
    simp [List.getElem?_set_ne this]
  · rw [writeStride_stop hc]
termination_by (if 0 < s then u - j else j - u).toNat
decreasing_by
  rcases hc with ⟨hs, hlu⟩ | ⟨hs, hul⟩
  · rw [if_pos hs, if_pos hs]; omega
  · rw [if_neg (by omega), if_neg (by omega)]; omega

/-- Value property of the overwrite loop: the `k`-th stride position ends
up holding the `k`-th replacement element (offset by the running read
index `i`), i.e. positions are overwritten in stride order. -/
theorem writeStride_values [Inhabited α] (units la : List α) (i : Nat)
    (j u s : Int)
    (hall : ∀ m ∈ strideIdxs j u s, 0 ≤ m ∧ m < (units.length : Int))
    (k : Nat) (hk : k < (strideIdxs j u s).length) :
    (writeStride units la i j u s).getD
        ((strideIdxs j u s).getD k 0).toNat default
      = la.getD (i + k) default := by
  by_cases hc : (0 < s ∧ j < u) ∨ (s < 0 ∧ u < j)
  · have hs0 : s ≠ 0 := by rcases hc with ⟨h, _⟩ | ⟨h, _⟩ <;> omega
    rw [writeStride_step hc]
    rw [strideIdxs_step hc] at hall hk ⊢
    match k with
    | 0 =>
      rw [List.getD_cons_zero]
      have hjb := hall j (List.mem_cons_self _ _)
      have htl : ∀ m ∈ strideIdxs (j + s) u s, 0 ≤ m :=
        fun m hm => (hall m (List.mem_cons_of_mem _ hm)).1
      have hnm : (j.toNat : Int) ∉ strideIdxs (j + s) u s := by
        rw [Int.toNat_of_nonneg hjb.1]
        exact strideIdxs_start_not_mem hs0
      rw [writeStride_frame htl hnm default]
      have hlt : j.toNat < units.length := by omega
      simp [List.getElem?_set_self hlt]
    | k' + 1 =>
      rw [List.getD_cons_succ]
      have htl : ∀ m ∈ strideIdxs (j + s) u s,
          0 ≤ m ∧ m < ((units.set j.toNat (la.getD i default)).length : Int) := by
        intro m hm
        have := hall m (List.mem_cons_of_mem _ hm)
        simpa [List.length_set] using this
      have := writeStride_values (units.set j.toNat (la.getD i default))
        la (i + 1) (j + s) u s htl k'
        (by simpa using Nat.lt_of_succ_lt_succ hk)
      rw [this]
      congr 1
      omega
  · rw [strideIdxs_stop hc] at hk
    simp at hk
termination_by (if 0 < s then u - j else j - u).toNat
decreasing_by
  rcases hc with ⟨hs, hlu⟩ | ⟨hs, hul⟩
  · rw [if_pos hs, if_pos hs]; omega
  · rw [if_neg (by omega), if_neg (by omega)]; omega

/-- Normalization leaves the step unchanged when it was given (`x&4`). -/
theorem slicenrF_step (x : Nat) (l u s n : Int) (hx : x &&& 4 ≠ 0) :
    (slicenrF x l u s n).2.2 = s := by
  simp [slicenrF, hx]

/-- Bounds guaranteed by slice normalization (spec §4.1): clamped into
`[0, n]` for a positive step, into `[-1, n-1]` for a negative one. -/
theorem slicenrF_bounds (x : Nat) (l u s n : Int) (hn : 0 ≤ n) :
    ((slicenrF x l u s n).2.2 > 0 →
      0 ≤ (slicenrF x l u s n).1 ∧ (slicenrF x l u s n).1 ≤ n ∧
      0 ≤ (slicenrF x l u s n).2.1 ∧ (slicenrF x l u s n).2.1 ≤ n) ∧
    ((slicenrF x l u s n).2.2 < 0 →
      -1 ≤ (slicenrF x l u s n).1 ∧ (slicenrF x l u s n).1 ≤ n - 1 ∧
      -1 ≤ (slicenrF x l u s n).2.1 ∧ (slicenrF x l u s n).2.1 ≤ n - 1) := by
  simp only [slicenrF, max_def, min_def]
  constructor <;> intro hs <;> refine ⟨?_, ?_, ?_, ?_⟩ <;>
    split_ifs at * <;> omega

/-- All stride positions of a normalized non-unit slice are legal vector
indices: `0 ≤ m < n`. -/
theorem strideIdxs_in_range {x : Nat} {l u s n m : Int} (hx : x &&& 4 ≠ 0)
    (hs : s ≠ 0) (hn : 0 ≤ n)
    (hm : m ∈ strideIdxs (slicenrF x l u s n).1 (slicenrF x l u s n).2.1 s) :
    0 ≤ m ∧ m < n := by
  have hb := slicenrF_bounds x l u s n hn
  have hstep := slicenrF_step x l u s n hx
  rcases lt_or_gt_of_ne hs with hneg | hpos
  · have hbb := hb.2 (by omega)
    have := strideIdxs_mem_neg hneg hm
    omega
  · have hbb := hb.1 (by omega)
    have := strideIdxs_mem_pos hpos hm
    omega

/-- The `ValueError` message built by `__setslice__` on an extended-slice
size mismatch (`list.hpp` line 279): it names the given (replacement)
size and the expected (slice) size. -/
def setsliceMsg (given expected : Nat) : String :=
  "attempt to assign sequence of size " ++ toString given ++
    " to extended slice of size " ++ toString expected

/-- Embedding of `list<T>::__setslice__(x, l, u, s, la)` (`list.hpp` lines 263-300),
embedded over the `units` vector.  The extended-slice size check (under
`x&4 && s != 1`) happens before any write; the `s == 1` branch erases the
addressed range (when `l <= u`) and splices the replacement in; the
non-unit branch overwrites the stride positions in stride order. -/
def list__setslice [Inhabited α] (x : Nat) (l u s : Int) (la : List α)
    (self : List α) : Except SsErr (List α) :=
  match slicenr x l u s self.length with
  | Except.error e => Except.error e
  | Except.ok (l, u, s) =>
    if x &&& 4 ≠ 0 ∧ s ≠ 1 ∧ slicesizeN l u s ≠ la.length then
      Except.error (SsErr.valueError (setsliceMsg la.length (slicesizeN l u s)))
    else if s = 1 then
      if l ≤ u then
        Except.ok (self.take l.toNat ++ la ++ self.drop u.toNat)
      else
        Except.ok (self.take l.toNat ++ la ++ self.drop l.toNat)
    else
      Except.ok (writeStride self la 0 l u s)

/-- Embedding of `list<T>::__delslice__(a, b)` (`list.hpp` lines 323-328): erase the
contiguous range `[a, b)` after clamping `b` to the length (a start past
the end is a no-op).  The source's `erase` has undefined behaviour when
`b < a`; as in the original Python semantics the embedding removes
nothing in that case. -/
def list__delslice (a b : Int) (self : List α) : List α :=
  if a > self.length then self
  else
    let b := if b > (self.length : Int) then (self.length : Int) else b
    if a ≤ b then self.take a.toNat ++ self.drop b.toNat else self

/-- Embedding of `list<T>::__delete__(x, l, u, s)` (`list.hpp` lines 308-321): unit
step erases the contiguous range; otherwise the source keeps exactly the
indices `i` with `i < l` or `i >= u` or `(i-l)%s != 0` (C truncated
remainder, hence `Int.tmod`). -/
def list__delete_slice [Inhabited α] (x : Nat) (l u s : Int) (self : List α) :
    Except SsErr (List α) :=
  match slicenr x l u s self.length with
  | Except.error e => Except.error e
  | Except.ok (l, u, s) =>
    if s = 1 then
      Except.ok (list__delslice l u self)
    else
      Except.ok
        (((List.range self.length).filter (fun i : Nat =>
            decide ((i : Int) < l ∨ (i : Int) ≥ u ∨
              Int.tmod ((i : Int) - l) s ≠ 0))).map
          (fun i : Nat => self.getD i default))

/-- Modelled from the spec: `__wrap` (index normalization, declared in
`builtin.hpp`, which is not among the sources at hand).  Spec §4.1:
"`i` may be negative; normalized as `i' = i + length` if `i < 0`.  Fails
with an IndexError-class condition if `i'` is still outside
`[0, length)`." -/
def __wrap (n : Int) (i : Int) : Except SsErr Int :=
  let i' := if i < 0 then i + n else i
  if i' < 0 ∨ i' ≥ n then
    Except.error (SsErr.indexError "index out of range")
  else
    Except.ok i'

/-- Embedding of `list<T>::__getitem__(i)` (`list.hpp` lines 158-161): wrap the index,
then read `units[i]`. -/
def list__getitem [Inhabited α] (self : List α) (i : Int) :
    Except SsErr α :=
  match __wrap self.length i with
  | Except.error e => Except.error e
  | Except.ok i' => Except.ok (self.getD i'.toNat default)

/-- Embedding of `list<T>::__setitem__(i, e)` (`list.hpp` lines 219-223): wrap the
index, then write `units[i] = e`. -/
def list__setitem (self : List α) (i : Int) (e : α) :
    Except SsErr (List α) :=
  match __wrap self.length i with
  | Except.error e' => Except.error e'
  | Except.ok i' => Except.ok (self.set i'.toNat e)

/-- Embedding of `list<T>::__slice__(x, l, u, s)` (`list.hpp` lines 235-248): build a
new list; unit step is a bulk copy of `[l, u)`, otherwise an explicit
stride walk collecting `units[i]`. -/
def list__slice [Inhabited α] (x : Nat) (l u s : Int) (self : List α) :
    Except SsErr (List α) :=
  match slicenr x l u s self.length with
  | Except.error e => Except.error e
  | Except.ok (l, u, s) =>
    if s = 1 then
      Except.ok ((self.drop l.toNat).take (u - l).toNat)
    else
      Except.ok ((strideIdxs l u s).map fun i => self.getD i.toNat default)

/-- Embedding of `list<T>::__eq__` (`list.hpp` lines 163-172) for two operands that are
lists of the same element type: lengths must match, then every position
is compared pairwise. -/
def list__eq [DecidableEq α] (a b : List α) : Bool :=
  if a.length ≠ b.length then false
  else (a.zip b).all fun p => p.1 = p.2

/-- C1: For every list `C` and slice parameters `start/stop/step` with
`step ≠ 1` (and nonzero, a zero step being a normalization error),
`set_slice(start, stop, step, R)` succeeds iff the length of the
replacement `R` equals the number of positions the stride walk covers; on
a mismatch it raises a `ValueError` whose message names the expected and
given sizes (and, the embedding mirroring the source's order, the check
happens before any write, so `C` is untouched); on success exactly the
stride positions are overwritten in stride order and the length of `C`
is unchanged. -/
theorem c1_setslice_extended_slice_law {α : Type} [Inhabited α]
    (C R : List α) (l u s : Int) (hs1 : s ≠ 1) (hs0 : s ≠ 0) :
    ((∃ C', list__setslice 7 l u s R C = Except.ok C') ↔
      R.length = (strideIdxs (slicenrF 7 l u s C.length).1
        (slicenrF 7 l u s C.length).2.1 s).length) ∧
    (R.length ≠ (strideIdxs (slicenrF 7 l u s C.length).1
        (slicenrF 7 l u s C.length).2.1 s).length →
      list__setslice 7 l u s R C = Except.error (SsErr.valueError
        (setsliceMsg R.length (strideIdxs (slicenrF 7 l u s C.length).1
          (slicenrF 7 l u s C.length).2.1 s).length))) ∧
    (∀ C', list__setslice 7 l u s R C = Except.ok C' →
      C'.length = C.length ∧
      (∀ p : Nat, (p : Int) ∉ strideIdxs (slicenrF 7 l u s C.length).1
          (slicenrF 7 l u s C.length).2.1 s →
        C'.getD p default = C.getD p default) ∧
      (∀ k : Nat, k < (strideIdxs (slicenrF 7 l u s C.length).1
          (slicenrF 7 l u s C.length).2.1 s).length →
        C'.getD ((strideIdxs (slicenrF 7 l u s C.length).1
          (slicenrF 7 l u s C.length).2.1 s).getD k 0).toNat default
          = R.getD k default)) := by
  have hx : (7 : Nat) &&& 4 ≠ 0 := by decide
  rcases hsf : slicenrF 7 l u s (C.length : Int) with ⟨l', u', s'⟩
  have hs' : s' = s := by
    have h := slicenrF_step 7 l u s (C.length : Int) hx
    rw [hsf] at h
    exact h
  rw [hs'] at hsf
  have hnr : slicenr 7 l u s (C.length : Int) = Except.ok (l', u', s) := by
    unfold slicenr
    rw [if_neg, hsf]
    rintro ⟨-, h0⟩
    exact hs0 h0
  have hrange : ∀ m ∈ strideIdxs l' u' s, 0 ≤ m ∧ m < (C.length : Int) := by
    intro m hm
    refine strideIdxs_in_range (x := 7) (l := l) (u := u) (s := s)
      (n := (C.length : Int)) hx hs0 (by omega) ?_
    rw [hsf]
    exact hm
  have hsz : slicesizeN l' u' s = (strideIdxs l' u' s).length :=
    (strideIdxs_length hs0).symm
  simp only [hsf]
  simp only [list__setslice, hnr]
  by_cases hEq : R.length = (strideIdxs l' u' s).length
  · have hcond : ¬ ((7 : Nat) &&& 4 ≠ 0 ∧ s ≠ 1 ∧
        slicesizeN l' u' s ≠ R.length) := by
      rw [hsz, ← hEq]
      intro h
      exact h.2.2 rfl
    rw [if_neg hcond, if_neg hs1]
    refine ⟨⟨fun _ => hEq, fun _ => ⟨_, rfl⟩⟩, fun h => absurd hEq h, ?_⟩
    rintro C' hC'
    injection hC' with hC'
    subst hC'
    refine ⟨writeStride_length C R 0 l' u' s, ?_, ?_⟩
    · intro p hp
      exact writeStride_frame (fun m hm => (hrange m hm).1) hp default
    · intro k hk
      have := writeStride_values C R 0 l' u' s hrange k hk
      simpa using this
  · have hcond : (7 : Nat) &&& 4 ≠ 0 ∧ s ≠ 1 ∧
        slicesizeN l' u' s ≠ R.length := by
      refine ⟨hx, hs1, ?_⟩
      rw [hsz]
      exact fun h => hEq h.symm
    rw [if_pos hcond, hsz]
    refine ⟨⟨?_, fun h => absurd h hEq⟩, fun _ => rfl, ?_⟩
    · rintro ⟨C', hC'⟩
      exact absurd hC' (by simp)
    · rintro C' hC'
      exact absurd hC' (by simp)

/-- Witness for C1 at a concrete input: `C = [1,2,3,4,5]`,
`set_slice(0, 4, 2, [10,20])`; the stride walk covers two positions, the
replacement has length two, so the assignment succeeds. -/
theorem c1_setslice_witness :
    ((2 : Int) ≠ 1) ∧ ((2 : Int) ≠ 0) ∧
    (∃ C', list__setslice 7 0 4 2 [10, 20] [1, 2, 3, 4, 5]
      = Except.ok (C' : List Int)) :=
  ⟨by decide, by decide,
    (c1_setslice_extended_slice_law [1, 2, 3, 4, 5] [10, 20] 0 4 2
      (by decide) (by decide)).1.mpr
      (by simp [strideIdxs.eq_def, slicenrF])⟩

/-- C3 (failing input): on `[10,20,30,40,50]`, `delete_slice(1,4,2)` does
remove the stride positions `{1,3}` leaving `[10,30,50]` as the claim
states — but `delete_slice(3,0,-2)`, whose stride walk covers positions
`[3,1]`, removes nothing at all: the source's keep-condition
`i < l or i >= u or (i-l)%s` keeps every index whenever the normalized
stop bound `u` is `>= 0` (`i >= u` holds for all kept candidates), so the
claim's "for negative step as well as positive" fails on the code. -/
theorem c3_delete_slice_eval :
    list__delete_slice 7 1 4 2 ([10, 20, 30, 40, 50] : List Int)
        = Except.ok [10, 30, 50] ∧
    list__delete_slice 7 3 0 (-2) ([10, 20, 30, 40, 50] : List Int)
        = Except.ok [10, 20, 30, 40, 50] ∧
    strideIdxs (slicenrF 7 3 0 (-2) 5).1 (slicenrF 7 3 0 (-2) 5).2.1 (-2)
        = [3, 1] := by
  refine ⟨by rfl, by rfl, ?_⟩
  have h1 : (slicenrF 7 3 0 (-2) 5) = (3, 0, -2) := by decide
  rw [h1]
  rw [strideIdxs_step (by decide), strideIdxs_step (by decide),
    strideIdxs_stop (by decide)]
  decide

/-- C4: read-after-write and negative-index normalization for
`__getitem__`/`__setitem__`: for an index in range after normalization,
`get(i)` right after `set(i, v)` yields `v`, and a negative `i` behaves
identically to `i + length`. -/
theorem c4_get_set_roundtrip {α : Type} [Inhabited α] (C : List α)
    (i : Int) (v : α) (h1 : -(C.length : Int) ≤ i)
    (h2 : i < (C.length : Int)) :
    (∃ C', list__setitem C i v = Except.ok C' ∧
      list__getitem C' i = Except.ok v) ∧
    (i < 0 →
      list__getitem C i = list__getitem C (i + C.length) ∧
      list__setitem C i v = list__setitem C (i + C.length) v) := by
  constructor
  · by_cases hneg : i < 0
    · have hcond : ¬ (i + (C.length : Int) < 0 ∨
          i + (C.length : Int) ≥ (C.length : Int)) := by omega
      refine ⟨C.set (i + (C.length : Int)).toNat v, ?_, ?_⟩
      · simp only [list__setitem, __wrap, if_pos hneg, if_neg hcond]
      · simp only [list__getitem, __wrap, List.length_set, if_pos hneg,
          if_neg hcond]
        rw [List.getD_eq_getElem?_getD,
          List.getElem?_set_self (by omega)]
        rfl
    · have hcond : ¬ (i < 0 ∨ i ≥ (C.length : Int)) := by omega
      refine ⟨C.set i.toNat v, ?_, ?_⟩
      · simp only [list__setitem, __wrap, if_neg hneg, if_neg
          (show ¬ (i < 0 ∨ i ≥ (C.length : Int)) from hcond)]
      · simp only [list__getitem, __wrap, List.length_set, if_neg hneg,
          if_neg hcond]
        rw [List.getD_eq_getElem?_getD,
          List.getElem?_set_self (by omega)]
        rfl
  · intro hneg
    have hpos : ¬ (i + (C.length : Int) < 0) := by omega
    constructor
    · simp only [list__getitem, __wrap, if_pos hneg, if_neg hpos]
    · simp only [list__setitem, __wrap, if_pos hneg, if_neg hpos]

/-- Witness for C4 at a concrete input: `C = [7,8,9]`, `i = -1`,
`v = 5`. -/
theorem c4_get_set_witness :
    (-(([7, 8, 9] : List Int).length : Int) ≤ -1) ∧
    ((-1 : Int) < (([7, 8, 9] : List Int).length : Int)) ∧
    (∃ C', list__setitem ([7, 8, 9] : List Int) (-1) 5 = Except.ok C' ∧
      list__getitem C' (-1) = Except.ok 5) :=
  ⟨by decide, by decide,
    (c4_get_set_roundtrip [7, 8, 9] (-1) 5 (by decide) (by decide)).1⟩

theorem list__eq_self {α : Type} [DecidableEq α] (C : List α) :
    list__eq C C = true := by
  rw [list__eq, if_neg (by omega)]
  induction C with
  | nil => rfl
  | cons a t ih =>
    simpa using ih

/-- C5: the full positive-step slice `C.slice(0, length, 1)` is a faithful
copy: it returns (as a new list; the embedding is pure, the source builds
a fresh `list<T>` and only reads `this`) a list equal to `C` position by
position, and `__eq__` holds of the copy and the original. -/
theorem c5_full_slice_copy {α : Type} [Inhabited α] [DecidableEq α]
    (C : List α) :
    list__slice 7 0 (C.length : Int) 1 C = Except.ok C ∧
    list__eq C C = true := by
  constructor
  · have hsf : slicenrF 7 0 (C.length : Int) 1 (C.length : Int)
        = (0, (C.length : Int), 1) := by
      simp only [slicenrF, Prod.mk.injEq]
      refine ⟨?_, ?_, ?_⟩ <;> (try simp only [max_def, min_def]) <;>
        split_ifs <;> omega
    have hnr : slicenr 7 0 (C.length : Int) 1 (C.length : Int)
        = Except.ok (0, (C.length : Int), 1) := by
      unfold slicenr
      rw [if_neg (by norm_num), hsf]
    simp only [list__slice, hnr, if_pos rfl]
    simp
  · exact list__eq_self C

/-- Modelled from the spec: the key comparator `cpp_cmp_key` (declared in
`builtin.hpp`, which is not among the sources at hand).  Spec §4.1:
"`key`, when given, is applied once per element to produce a derived sort
key; comparisons then use that key's natural ordering". -/
def cpp_cmp_key (key : α → Int) (a b : α) : Prop := key a < key b

/-- The contract of `std::sort`, which `list<T>::sort` calls
(`list.hpp` lines 438-458): the result is a permutation of the input that
is sorted with respect to the strict weak ordering; the relative order of
elements that compare equal is NOT specified (that guarantee belongs to
`std::stable_sort`, which the source does not use).  Any output
satisfying this predicate is an admissible execution of the source. -/
def stdSortResult (lt : α → α → Prop) (inp out : List α) : Prop :=
  inp.Perm out ∧ out.Chain' (fun a b => ¬ lt b a)

/-- Admissible results of `list<T>::sort(0, key, 0)` (`list.hpp` lines
439-443, the `key`-given, non-reverse dispatch):
`std::sort(units.begin(), units.end(), cpp_cmp_key<T, U>(key))`. -/
def list_sort_key_result (key : α → Int) (inp out : List α) : Prop :=
  stdSortResult (cpp_cmp_key key) inp out

/-- C2 (failing input): sorting `[(5,1), (5,2)]` by the key "first
component" — both elements have equal keys, yet the swapped output
`[(5,2), (5,1)]` is an admissible result of the `std::sort` call the
source performs, so the source does not guarantee the stability the
claim states (a stable sort would be obtained with `std::stable_sort`).
-/
theorem c2_sort_unstable_admissible :
    list_sort_key_result (fun p : Int × Int => p.1)
      [(5, 1), (5, 2)] [(5, 2), (5, 1)] ∧
    ([(5, 2), (5, 1)] : List (Int × Int)) ≠ [(5, 1), (5, 2)] := by
  refine ⟨⟨List.Perm.swap _ _ _, ?_⟩, by decide⟩
  simp [List.chain'_cons, cpp_cmp_key]

/-- Embedding of the `bytes` byte-string runtime type: the raw buffer `unit` (one
`Nat` per byte), the memoized `hash` field (constructors set the sentinel
`-1`) and the `frozen` flag. -/
structure bytes where
  unit : List Nat
  hash : Int
  frozen : Bool
deriving DecidableEq

/-- Embedding of `unit.c_str()` as read by the C-string constructor of the standard string: the
buffer truncated at the first NUL byte. -/
def cStr (l : List Nat) : List Nat := l.takeWhile (fun c => c != 0)

/-- Conversion of the `size_t` result of `std::hash` into the signed
`long hash` field (two's-complement 64-bit narrowing). -/
def toLong (n : Nat) : Int :=
  let m : Nat := n % 2 ^ 64
  if m < 2 ^ 63 then (m : Int) else (m : Int) - 2 ^ 64

/-- Embedding of `bytes::__hash__` (bytes translation unit, lines 89-96), parameterized
by the ambient implementation-defined hasher `H` standing for
`std::hash<std::string>`: return the memoized value unless it is the
sentinel `-1`; otherwise hash `unit.c_str()` — the buffer truncated at
the first NUL — store it, and return it.  The pair returned is
(value, receiver after the call). -/
def bytes__hash (H : List Nat → Nat) (b : bytes) : Int × bytes :=
  if b.hash ≠ -1 then (b.hash, b)
  else
    let h := toLong (H (cStr b.unit))
    (h, { b with hash := h })

/-- Embedding of `bytes::__eq__` (bytes translation unit, lines 98-104): sizes must
match and memoized hashes, when both present, must not differ (the fast
path); then the raw buffers are compared with `memcmp` over the common
length. -/
def bytes__eq (a q : bytes) : Bool :=
  if a.unit.length ≠ q.unit.length ∨
      (a.hash ≠ -1 ∧ q.hash ≠ -1 ∧ a.hash ≠ q.hash) then false
  else decide (a.unit = q.unit)

/-- Embedding of `bytes::__add__` (bytes translation unit, lines 106-114): a freshly
allocated `bytes` (constructor sets `hash = -1`) holding the
concatenation of the two buffers; the receiver is only read. -/
def bytes__add (a b : bytes) : bytes := ⟨a.unit ++ b.unit, -1, false⟩

/-- Embedding of `bytes::__iadd__` (bytes translation unit, lines 116-118): simply
`return __add__(b);` — the receiver is never written.  The result pair is
(receiver after the call, returned object). -/
def bytes__iadd (a b : bytes) : bytes × bytes := (a, bytes__add a b)

/-- C10: in-place byte concatenation never mutates the receiver: after
`a.__iadd__(b)` the receiver's buffer and memoized hash are unchanged,
and the returned object is exactly `__add__`'s result — a fresh byte
sequence holding `a`'s bytes followed by `b`'s, with an uncomputed
hash. -/
theorem c10_iadd_is_pure_add (a b : bytes) :
    (bytes__iadd a b).1 = a ∧
    (bytes__iadd a b).1.unit = a.unit ∧
    (bytes__iadd a b).1.hash = a.hash ∧
    (bytes__iadd a b).2 = bytes__add a b ∧
    (bytes__add a b).unit = a.unit ++ b.unit ∧
    (bytes__add a b).hash = -1 :=
  ⟨rfl, rfl, rfl, rfl, rfl, rfl⟩

theorem cStr_append_nul {p : List Nat} (t : List Nat) (hp : 0 ∉ p) :
    cStr (p ++ 0 :: t) = p := by
  induction p with
  | nil => rfl
  | cons a p' ih =>
    have ha : a ≠ 0 := fun h => hp (h ▸ List.mem_cons_self _ _)
    have hp' : 0 ∉ p' := fun h => hp (List.mem_cons_of_mem _ h)
    simp only [List.cons_append, cStr, List.takeWhile_cons]
    rw [if_pos (by simpa using ha)]
    simpa [cStr] using ih hp'

/-- C9: the memoized hash is computed from the buffer read as a
NUL-terminated C string, so two byte sequences that agree on every byte
up to and including the first NUL but differ afterwards hash
identically. -/
theorem c9_hash_ignores_bytes_after_nul (H : List Nat → Nat)
    (p t1 t2 : List Nat) (f1 f2 : Bool) (hp : 0 ∉ p) (hne : t1 ≠ t2) :
    (bytes__hash H ⟨p ++ 0 :: t1, -1, f1⟩).1
      = (bytes__hash H ⟨p ++ 0 :: t2, -1, f2⟩).1 := by
  simp only [bytes__hash]
  rw [if_neg (by simp), if_neg (by simp)]
  rw [cStr_append_nul t1 hp, cStr_append_nul t2 hp]

/-- Witness for C9 at a concrete input: buffers `[65, 0, 66]` and
`[65, 0, 67]` share the prefix `[65]` before the NUL and differ after
it. -/
theorem c9_hash_witness :
    (0 ∉ [65]) ∧ ([66] ≠ [67]) ∧
    (bytes__hash List.length ⟨[65] ++ 0 :: [66], -1, false⟩).1
      = (bytes__hash List.length ⟨[65] ++ 0 :: [67], -1, false⟩).1 :=
  ⟨by decide, by decide,
    c9_hash_ignores_bytes_after_nul List.length [65] [66] [67] false false
      (by decide) (by decide)⟩

/-- C7: `hash()` is pure and memoizing, and the hash fast path of
`__eq__` never produces a false negative.  The hypotheses on the stored
`hash` fields are the reachability invariant of the type: every
constructor sets the sentinel `-1` and `__hash__` is the only writer, so
a reachable `bytes` carries either the sentinel or the memoized value. -/
theorem bytes__hash_fields (H : List Nat → Nat) (c : bytes)
    (hc : c.hash = -1 ∨ c.hash = toLong (H (cStr c.unit))) :
    (bytes__hash H c).2.unit = c.unit ∧
    (bytes__hash H c).2.hash = toLong (H (cStr c.unit)) ∧
    (bytes__hash H c).1 = toLong (H (cStr c.unit)) := by
  by_cases h1 : c.hash = -1
  · rw [bytes__hash, if_neg (by simp [h1])]
    exact ⟨rfl, rfl, rfl⟩
  · rcases hc with hc | hc
    · exact absurd hc h1
    · rw [bytes__hash, if_pos h1]
      exact ⟨rfl, hc, hc⟩

theorem bytes__hash_state (H : List Nat → Nat) (c : bytes)
    (hc : c.hash = toLong (H (cStr c.unit))) :
    (bytes__hash H c).2 = c ∧ (bytes__hash H c).1 = c.hash := by
  obtain ⟨cu, ch, cf⟩ := c
  simp only at hc
  simp only [bytes__hash]
  rw [← hc]
  split_ifs <;> exact ⟨rfl, rfl⟩

theorem c7_hash_pure_and_eq_consistent (H : List Nat → Nat) (b b' : bytes)
    (hmemo : b.hash = -1 ∨ b.hash = toLong (H (cStr b.unit)))
    (hmemo' : b'.hash = -1 ∨ b'.hash = toLong (H (cStr b'.unit)))
    (hunit : b.unit = b'.unit) :
    (bytes__hash H (bytes__hash H b).2).1 = (bytes__hash H b).1 ∧
    (bytes__hash H (bytes__hash H b).2).2 = (bytes__hash H b).2 ∧
    bytes__eq (bytes__hash H b).2 (bytes__hash H b').2 = true := by
  have hb := bytes__hash_fields H b hmemo
  have hb' := bytes__hash_fields H b' hmemo'
  have hXc : (bytes__hash H b).2.hash
      = toLong (H (cStr (bytes__hash H b).2.unit)) := by
    rw [hb.2.1, hb.1]
  have hst := bytes__hash_state H (bytes__hash H b).2 hXc
  refine ⟨?_, hst.1, ?_⟩
  · rw [hst.2, hb.2.1, hb.2.2]
  · rw [bytes__eq, if_neg, hb.1, hb'.1, hunit]
    · simp
    · rw [hb.1, hb'.1, hb.2.1, hb'.2.1, hunit]
      simp

/-- Witness for C7 at a concrete input: `b = b' = ⟨[1, 2], -1, false⟩`
with `H` instantiated to `List.length`. -/
theorem c7_hash_witness :
    ((⟨[1, 2], -1, false⟩ : bytes).hash = -1 ∨
      (⟨[1, 2], -1, false⟩ : bytes).hash
        = toLong (List.length (cStr [1, 2]))) ∧
    ([1, 2] = [1, 2]) ∧
    bytes__eq (bytes__hash List.length ⟨[1, 2], -1, false⟩).2
      (bytes__hash List.length ⟨[1, 2], -1, false⟩).2 = true :=
  ⟨Or.inl rfl, rfl,
    (c7_hash_pure_and_eq_consistent List.length ⟨[1, 2], -1, false⟩
      ⟨[1, 2], -1, false⟩ (Or.inl rfl) (Or.inl rfl) rfl).2.2⟩

/-- A lowercase hex digit, as `std::hex` renders one nibble
(`0`-`9` then `a`-`f`, byte codes). -/
def hexDig (n : Nat) : Nat := if n < 10 then 48 + n else 87 + n

/-- The escape table `sep` of `bytes::__repr__` (bytes translation unit,
lines 51-59): backslash, LF, CR, TAB, extended with the single quote when
the content holds both kinds of quote. -/
def reprSep (both : Bool) : List Nat :=
  if both then [92, 10, 13, 9, 39] else [92, 10, 13, 9]

/-- The matching escape letters `let` (`"\\nrt"`, extended with `'`). -/
def reprLet (both : Bool) : List Nat :=
  if both then [92, 110, 114, 116, 39] else [92, 110, 114, 116]

/-- The per-byte output of the `__repr__` loop (bytes translation unit,
lines 66-83): bytes found in `sep` become a backslash followed by the
matching letter; otherwise a value below 16 prints as `"\x0"` plus one
hex digit, printable ASCII prints literally, and anything else as `"\x"`
plus two hex digits. -/
def escSrc (both : Bool) (c : Nat) : List Nat :=
  match (reprSep both).findIdx? (fun x => x == c) with
  | some k => [92, (reprLet both).getD k 0]
  | none =>
    if c < 16 then [92, 120, 48, hexDig c]
    else if 32 ≤ c ∧ c ≤ 126 then [c]
    else [92, 120, hexDig (c / 16), hexDig (c % 16)]

/-- Embedding of `bytes::__repr__` (bytes translation unit, lines 49-87) as the list
of output byte codes: the `b` prefix (98), the chosen quote, the escaped
content, the closing quote.  The quote is a double quote (34) exactly
when the content has a single quote and no double quote, else a single
quote (39); both quote kinds present extend the escape table with the
single quote. -/
def bytes__repr (b : bytes) : List Nat :=
  let hasq := b.unit.contains 39
  let hasd := b.unit.contains 34
  let quote : Nat := if hasq && !hasd then 34 else 39
  98 :: quote :: (b.unit.flatMap (escSrc (hasq && hasd)) ++ [quote])

/-- The quote-selection rule exactly as the claim states it: a single
quote unless the content contains a single quote and no double quote. -/
def claimQuote (content : List Nat) : Nat :=
  if content.contains 39 && !content.contains 34 then 34 else 39

/-- The per-byte escaping rule exactly as the claim states it: backslash,
newline, carriage return and tab map to their two-character escapes, the
chosen quote is escaped, printable ASCII (0x20-0x7E) is emitted
literally, and every other byte as a zero-padded two-hex-digit
`\xHH`. -/
def escClaim (quote : Nat) (c : Nat) : List Nat :=
  if c = 92 then [92, 92]
  else if c = 10 then [92, 110]
  else if c = 13 then [92, 114]
  else if c = 9 then [92, 116]
  else if c = quote then [92, quote]
  else if 32 ≤ c ∧ c ≤ 126 then [c]
  else [92, 120, hexDig (c / 16), hexDig (c % 16)]

set_option maxRecDepth 4096

theorem escSrc_claim_both : ∀ c : Nat, c < 256 →
    escSrc true c = escClaim 39 c := by decide

theorem escSrc_claim_plain : ∀ c : Nat, c < 256 → c ≠ 39 →
    escSrc false c = escClaim 39 c := by decide

theorem escSrc_claim_dquote : ∀ c : Nat, c < 256 → c ≠ 34 →
    escSrc false c = escClaim 34 c := by decide

theorem flatMap_congr_mem {l : List Nat} {f g : Nat → List Nat}
    (h : ∀ c ∈ l, f c = g c) : l.flatMap f = l.flatMap g := by
  induction l with
  | nil => rfl
  | cons a t ih =>
    simp only [List.flatMap_cons]
    rw [h a (List.mem_cons_self _ _),
      ih fun c hc => h c (List.mem_cons_of_mem _ hc)]

/-- C6: for every byte sequence, `__repr__` produces exactly the quoted
literal form the claim describes (with the source's `b` literal prefix
in front): the claim's quote-selection rule picks the delimiter and every
content byte is rendered by the claim's escaping rule — short escapes for
backslash/LF/CR/TAB, the chosen quote escaped, printable ASCII literal,
all other bytes as zero-padded `\xHH`. -/
theorem c6_bytes_repr_spec (b : bytes) (hb : ∀ c ∈ b.unit, c < 256) :
    bytes__repr b =
      98 :: claimQuote b.unit ::
        (b.unit.flatMap (escClaim (claimQuote b.unit)) ++
          [claimQuote b.unit]) := by
  by_cases hq : (39 : Nat) ∈ b.unit
  · by_cases hd : (34 : Nat) ∈ b.unit
    · have h1 : bytes__repr b
          = 98 :: 39 :: (b.unit.flatMap (escSrc true) ++ [39]) := by
        simp [bytes__repr, hq, hd]
      have h2 : claimQuote b.unit = 39 := by simp [claimQuote, hq, hd]
      rw [h1, h2,
        flatMap_congr_mem fun c hc => escSrc_claim_both c (hb c hc)]
    · have h1 : bytes__repr b
          = 98 :: 34 :: (b.unit.flatMap (escSrc false) ++ [34]) := by
        simp [bytes__repr, hq, hd]
      have h2 : claimQuote b.unit = 34 := by simp [claimQuote, hq, hd]
      rw [h1, h2,
        flatMap_congr_mem fun c hc => escSrc_claim_dquote c (hb c hc)
          (fun h => hd (h ▸ hc))]
  · have h1 : bytes__repr b
        = 98 :: 39 :: (b.unit.flatMap (escSrc false) ++ [39]) := by
      simp [bytes__repr, hq]
    have h2 : claimQuote b.unit = 39 := by simp [claimQuote, hq]
    rw [h1, h2,
      flatMap_congr_mem fun c hc => escSrc_claim_plain c (hb c hc)
        (fun h => hq (h ▸ hc))]

/-- Witness for C6 at a concrete input: content
`[0, 39, 34, 92, 10, 200]` (a NUL, both quote kinds, a backslash, a
newline and a high byte). -/
theorem c6_bytes_repr_witness :
    (∀ c ∈ [0, 39, 34, 92, 10, 200], c < 256) ∧
    bytes__repr ⟨[0, 39, 34, 92, 10, 200], -1, false⟩ =
      98 :: claimQuote [0, 39, 34, 92, 10, 200] ::
        ([0, 39, 34, 92, 10, 200].flatMap
            (escClaim (claimQuote [0, 39, 34, 92, 10, 200])) ++
          [claimQuote [0, 39, 34, 92, 10, 200]]) :=
  ⟨by decide,
    c6_bytes_repr_spec ⟨[0, 39, 34, 92, 10, 200], -1, false⟩ (by decide)⟩

/-- Modelled from the spec: the CSV quoting modes (§3, "quoting mode
(one of: quote-all, quote-minimal, quote-none, quote-nonnumeric)").  The
CSV implementation translation unit is not among the sources at hand
(`csv.hpp` holds declarations only), so the whole CSV embedding below
follows the specification's words. -/
inductive Quoting where
  | all
  | minimal
  | nonnumeric
  | quoteNone
deriving DecidableEq

/-- Modelled from the spec: the CSV dialect (§3): delimiter, quote
character, optional escape character, doublequote flag,
skip-initial-space flag, line terminator, quoting mode, strict flag. -/
structure Dialect where
  delimiter : Char
  quotechar : Char
  escapechar : Option Char
  doublequote : Bool
  skipinitialspace : Bool
  lineterminator : String
  quoting : Quoting
  strict : Bool

/-- Modelled from the spec: the built-in default dialect (§6): "comma
delimiter, double-quote quoting, `\r\n` terminator, minimal quoting,
doublequote enabled". -/
def defaultDialect : Dialect :=
  ⟨',', '"', Option.none, true, false, "\r\n", Quoting.minimal, false⟩

/-- Modelled from the spec: "fields that parse as a number" for the
quote-nonnumeric mode (no claim exercises this test; digits with an
optional sign and decimal point). -/
def isNumericStr (f : String) : Bool :=
  !f.data.isEmpty &&
    f.data.all fun c => c.isDigit || c = '.' || c = '+' || c = '-'

/-- A character the writer must protect: the delimiter, the quote
character, any character of the line terminator, or the escape
character (spec §4.4). -/
def isSpecialCh (d : Dialect) (c : Char) : Bool :=
  c = d.delimiter || c = d.quotechar || d.lineterminator.data.contains c ||
    (match d.escapechar with
     | Option.some e => c = e
     | Option.none => false)

/-- Modelled from the spec (§4.4): the writer's quoting decision.
quote-all quotes every field; quote-minimal quotes fields containing a
special character — and also an empty field when the record has exactly
one field, so a single empty field is not written as a bare empty line;
quote-nonnumeric quotes everything that does not parse as a number;
quote-none never quotes. -/
def quoteDecision (d : Dialect) (nfields : Nat) (f : String) : Bool :=
  match d.quoting with
  | Quoting.all => true
  | Quoting.minimal =>
      f.data.any (isSpecialCh d) || (f.data.isEmpty && nfields == 1)
  | Quoting.nonnumeric => !isNumericStr f
  | Quoting.quoteNone => false

/-- Modelled from the spec (§4.4): render one field.  A quoted field is
wrapped in quote characters with embedded quotes doubled when
doublequote is enabled, otherwise escaped with the escape character
(failing when none is configured); an unquoted field under quote-none
has its special characters escaped, failing when a special character
occurs with no escape character configured. -/
def writeField (d : Dialect) (nfields : Nat) (f : String) :
    Except SsErr (List Char) :=
  if quoteDecision d nfields f then
    if d.doublequote then
      Except.ok ([d.quotechar] ++
        (f.data.flatMap fun c =>
          if c = d.quotechar then [d.quotechar, d.quotechar] else [c]) ++
        [d.quotechar])
    else
      match d.escapechar with
      | Option.some e =>
          Except.ok ([d.quotechar] ++
            (f.data.flatMap fun c =>
              if c = d.quotechar then [e, c] else [c]) ++
            [d.quotechar])
      | Option.none =>
          Except.error (SsErr.csvError "need to escape, but no escapechar set")
  else
    match d.quoting with
    | Quoting.quoteNone =>
        match d.escapechar with
        | Option.some e =>
            Except.ok (f.data.flatMap fun c =>
              if isSpecialCh d c then [e, c] else [c])
        | Option.none =>
            if f.data.any (isSpecialCh d) then
              Except.error
                (SsErr.csvError "need to escape, but no escapechar set")
            else
              Except.ok f.data
    | _ => Except.ok f.data

/-- Modelled from the spec (§4.4): `writerow` — render each field, join
with the delimiter, terminate with the dialect's line terminator. -/
def writerow (d : Dialect) (record : List String) :
    Except SsErr String :=
  match record.mapM (writeField d record.length) with
  | Except.error e => Except.error e
  | Except.ok fields =>
      Except.ok (String.mk
        (List.intercalate [d.delimiter] fields ++ d.lineterminator.data))

/-- Modelled from the spec: the reader's state machine states (§4.3). -/
inductive RState where
  | startRecord
  | startField
  | inField
  | inQuotedField
  | escapeInQuotedField
  | quoteInQuotedField
  | escapedChar
  | eatCrnl
deriving DecidableEq

/-- Modelled from the spec: the parsing state — current machine state,
the field being accumulated (reversed), the fields of the record under
construction (reversed) and the completed records (reversed). -/
structure RParse where
  state : RState
  field : List Char
  fields : List String
  records : List (List String)

/-- Accumulate one character into the current field. -/
def pushChar (st : RParse) (c : Char) (next : RState) : RParse :=
  { st with field := c :: st.field, state := next }

/-- Close the current field. -/
def saveFieldTo (st : RParse) (next : RState) : RParse :=
  { st with
      field := []
      fields := String.mk st.field.reverse :: st.fields
      state := next }

/-- Close the current field and finalize the record (spec §4.3: "a full
record is assembled when a line terminator is consumed outside a quoted
field"). -/
def endRecordTo (st : RParse) (next : RState) : RParse :=
  let st' := saveFieldTo st next
  { st' with fields := [], records := st'.fields.reverse :: st'.records }

/-- A line-terminator character (the CR/LF pair is finished in
EAT_CRNL). -/
def isTermCh (c : Char) : Bool := c = '\r' || c = '\n'

/-- Modelled from the spec (§4.3, START_FIELD): leading whitespace is
skipped under skip-initial-space; a quote (when quoting is not
quote-none) opens a quoted field; a delimiter emits an empty field; a
terminator finalizes the record; an escape character defers one
character; anything else starts accumulating an unquoted field. -/
def handleStartField (d : Dialect) (st : RParse) (c : Char) : RParse :=
  if d.skipinitialspace && c = ' ' then
    { st with state := RState.startField }
  else if c = d.quotechar && !(d.quoting == Quoting.quoteNone) then
    { st with state := RState.inQuotedField }
  else if c = d.delimiter then
    saveFieldTo st RState.startField
  else if isTermCh c then
    endRecordTo st RState.eatCrnl
  else if d.escapechar == Option.some c then
    { st with state := RState.escapedChar }
  else
    pushChar st c RState.inField

/-- Modelled from the spec (§4.3): one transition of the reader's
character-level state machine. -/
def stepChar (d : Dialect) (st : RParse) (c : Char) :
    Except SsErr RParse :=
  match st.state with
  | RState.startRecord =>
      if isTermCh c then Except.ok { st with state := RState.eatCrnl }
      else Except.ok (handleStartField d st c)
  | RState.startField => Except.ok (handleStartField d st c)
  | RState.inField =>
      if c = d.delimiter then Except.ok (saveFieldTo st RState.startField)
      else if isTermCh c then Except.ok (endRecordTo st RState.eatCrnl)
      else if d.escapechar == Option.some c then
        Except.ok { st with state := RState.escapedChar }
      else Except.ok (pushChar st c RState.inField)
  | RState.inQuotedField =>
      if d.escapechar == Option.some c then
        Except.ok { st with state := RState.escapeInQuotedField }
      else if c = d.quotechar then
        Except.ok { st with state := RState.quoteInQuotedField }
      else Except.ok (pushChar st c RState.inQuotedField)
  | RState.quoteInQuotedField =>
      if d.doublequote && c = d.quotechar then
        Except.ok (pushChar st c RState.inQuotedField)
      else if c = d.delimiter then
        Except.ok (saveFieldTo st RState.startField)
      else if isTermCh c then Except.ok (endRecordTo st RState.eatCrnl)
      else if d.strict then
        Except.error (SsErr.csvError "delimiter expected after quotechar")
      else Except.ok (pushChar st c RState.inField)
  | RState.escapeInQuotedField =>
      Except.ok (pushChar st c RState.inQuotedField)
  | RState.escapedChar =>
      Except.ok (pushChar st c RState.inField)
  | RState.eatCrnl =>
      if isTermCh c then Except.ok st
      else
        -- the per-line driver of the source re-enters START_RECORD at
        -- the start of the next physical line
        Except.ok (handleStartField d { st with state := RState.startRecord } c)

/-- Run the machine over a character stream. -/
def parseChars (d : Dialect) (st : RParse) : List Char → Except SsErr RParse
  | [] => Except.ok st
  | c :: cs =>
      match stepChar d st c with
      | Except.error e => Except.error e
      | Except.ok st' => parseChars d st' cs

/-- Modelled from the spec: parse a complete, terminator-ended input into
its records (each record a list of field strings). -/
def csvParse (d : Dialect) (input : String) :
    Except SsErr (List (List String)) :=
  match parseChars d ⟨RState.startRecord, [], [], []⟩ input.data with
  | Except.error e => Except.error e
  | Except.ok st => Except.ok st.records.reverse

/-- C8: under quote-minimal with the default dialect, writing the
single-field record `[""]` produces a quoted empty field followed by the
line terminator — not a bare empty line —, and parsing that output back
with the same dialect yields exactly one record holding one empty
field. -/
theorem c8_csv_empty_single_field :
    writerow defaultDialect [""] = Except.ok "\"\"\r\n" ∧
    "\"\"\r\n" ≠ (String.mk defaultDialect.lineterminator.data) ∧
    csvParse defaultDialect "\"\"\r\n" = Except.ok [[""]] := by
  refine ⟨by rfl, by decide, by rfl⟩

end Shedskin
